import Mathlib

/-!
Verification of the allowance calculation engine and the wizard page of the
foster-allowance repository.

The repository ships the wizard page `src/pages/Index.tsx`, which calls
`calculateTotalAllowance(children, isExperiencedCarer)` from `@/lib/calculator`.
The calculator module itself is not among the provided source files, so the
engine below is modelled from the specification (§3, §4.1); the page state
machine is embedded directly from `Index.tsx`.
-/

namespace Allowance

/-- A contiguous inclusive span of weeks in a 52-week year (spec §3,
`WeekInterval`): `start` and `end` are integers with `1 ≤ start ≤ end ≤ 52`. -/
structure WeekInterval where
  start : ℕ
  «end» : ℕ
deriving DecidableEq

/-- Age bracket of a child (spec §3, `ageGroup` enum; the wizard page uses
the first bracket `0-4` as its default). -/
inductive AgeGroup where
  | a0to4
  | a5to10
  | a11to15
  | a16to17
deriving DecidableEq

/-- One child's care profile (spec §3, `ChildRecord` / the page's
`ChildFormData`): an id unique within a submission, an age bracket, a
special-care flag and a sequence of week intervals. -/
structure ChildRecord where
  id : String
  ageGroup : AgeGroup
  isSpecialCare : Bool
  weekIntervals : List WeekInterval
deriving DecidableEq

/-- Household-level modifiers (spec §3, `HouseholdContext`). -/
structure HouseholdContext where
  isExperiencedCarer : Bool
deriving DecidableEq

/-- Policy configuration mapping `(ageGroup, isSpecialCare)` to a weekly base
rate (spec §3, `RateTable`); a pair may lack an entry, which is a
configuration error, never a silent zero. Decimal currency arithmetic is
modelled exactly by the rationals. -/
def RateTable : Type := AgeGroup → Bool → Option ℚ

/-- Error taxonomy of the core (spec §7): the only error originating in the
engine for validated inputs is `ConfigurationError`, carrying the pair that
had no entry in the rate table. -/
inductive CalcError where
  | configurationError (ageGroup : AgeGroup) (isSpecialCare : Bool)
deriving DecidableEq

/-- Output of one calculation (spec §3, `AllowanceResult`). -/
structure AllowanceResult where
  weeklyTotal : ℚ
  monthlyTotal : ℚ
  yearlyTotal : ℚ
deriving DecidableEq

/-- Ordering of intervals by `start`, used by the normalization sort. -/
def startLE (a b : WeekInterval) : Prop := a.start ≤ b.start

instance : DecidableRel startLE := fun a b =>
  inferInstanceAs (Decidable (a.start ≤ b.start))

instance : IsTotal WeekInterval startLE := ⟨fun a b => Nat.le_total a.start b.start⟩

instance : IsTrans WeekInterval startLE := ⟨fun _ _ _ h h' => Nat.le_trans h h'⟩

/-- Modelled from the spec (§4.1 Step 1): sort the supplied intervals by
`start` (the calculator module is absent from the sources). -/
def sortByStart (l : List WeekInterval) : List WeekInterval :=
  l.insertionSort startLE

/-- Sweep step of the coalescing pass: `cur` is the previous interval being
grown; an interval whose `start` is ≤ `cur.end + 1` is absorbed into `cur`,
otherwise `cur` is emitted and the sweep restarts from that interval. -/
def coalesceFrom (cur : WeekInterval) : List WeekInterval → List WeekInterval
  | [] => [cur]
  | j :: rest =>
    if j.start ≤ cur.«end» + 1 then
      coalesceFrom { start := cur.start, «end» := max cur.«end» j.«end» } rest
    else
      cur :: coalesceFrom j rest

/-- Modelled from the spec (§4.1 Step 1): sweep a start-sorted list and
coalesce any interval whose `start` is ≤ the running `end + 1` of the
previous interval into that previous interval. -/
def coalesce : List WeekInterval → List WeekInterval
  | [] => []
  | i :: rest => coalesceFrom i rest

/-- Modelled from the spec (§4.1 Step 1): merge a child's supplied week
intervals into a minimal set of disjoint, sorted intervals. -/
def normalizeIntervals (l : List WeekInterval) : List WeekInterval :=
  coalesce (sortByStart l)

/-- Number of weeks an interval spans, `end - start + 1` (spec §4.1 Step 2). -/
def intervalLen (i : WeekInterval) : ℕ := i.«end» + 1 - i.start

/-- Sum of `(end - start + 1)` across a list of intervals. -/
def sumLens (l : List WeekInterval) : ℕ := (l.map intervalLen).sum

/-- Modelled from the spec (§4.1 Step 2): a child's active-week count is the
sum of `(end - start + 1)` across its normalized intervals — no additional
clamp beyond the coalescing step. -/
def activeWeekCount (l : List WeekInterval) : ℕ := sumLens (normalizeIntervals l)

/-- Modelled from the spec (§4.1 Step 4): a single household-wide
multiplicative experience adjustment; the sources do not fix its
coefficient, so a representative fixed constant stands for it. -/
def experienceMultiplier : ℚ := 6 / 5

/-- Modelled from the spec (§4.1 Step 4): apply the household-wide
experience adjustment uniformly to a resolved weekly rate. -/
def adjustRate (ctx : HouseholdContext) (base : ℚ) : ℚ :=
  if ctx.isExperiencedCarer then experienceMultiplier * base else base

/-- A child's computed figures: the contribution to the steady-state weekly
total and the integrated yearly amount (spec §4.1 Step 5). -/
structure ChildResult where
  weeklyContribution : ℚ
  yearlyAmount : ℚ
deriving DecidableEq

/-- Modelled from the spec (§4.1 Steps 3-5): resolve the child's weekly base
rate — a direct lookup, a missing entry is a hard `ConfigurationError` —
apply the experience adjustment, and produce the child's weekly contribution
(its adjusted rate while active, zero for a child with no active interval)
and yearly amount (`adjustedWeeklyRate × activeWeekCount`). -/
def computeChild (ctx : HouseholdContext) (rates : RateTable)
    (child : ChildRecord) : Except CalcError ChildResult :=
  match rates child.ageGroup child.isSpecialCare with
  | none => .error (.configurationError child.ageGroup child.isSpecialCare)
  | some base =>
    let adj := adjustRate ctx base
    .ok { weeklyContribution :=
            if normalizeIntervals child.weekIntervals = [] then 0 else adj
          yearlyAmount := adj * (activeWeekCount child.weekIntervals : ℚ) }

/-- Modelled from the spec: per-child computation threaded over the list of
children; the first missing rate aborts the whole calculation. -/
def computeChildren (ctx : HouseholdContext) (rates : RateTable) :
    List ChildRecord → Except CalcError (List ChildResult)
  | [] => .ok []
  | c :: cs =>
    match computeChild ctx rates c with
    | .error e => .error e
    | .ok r =>
      match computeChildren ctx rates cs with
      | .error e => .error e
      | .ok rs => .ok (r :: rs)

/-- Modelled from the spec (§4.1 Step 6, contract §4.1): the engine.
`weeklyTotal` sums the adjusted rates of children with at least one active
interval, `yearlyTotal` sums the per-child yearly amounts, and
`monthlyTotal` is the derived projection `yearlyTotal / 12`. -/
def compute (children : List ChildRecord) (ctx : HouseholdContext)
    (rates : RateTable) : Except CalcError AllowanceResult :=
  match computeChildren ctx rates children with
  | .error e => .error e
  | .ok rs =>
    let yearly := (rs.map (·.yearlyAmount)).sum
    .ok { weeklyTotal := (rs.map (·.weeklyContribution)).sum
          monthlyTotal := yearly / 12
          yearlyTotal := yearly }

/-- Modelled from the spec (§9): the source keeps the rate table as a
module-level constant inside the calculator module. The spec's §8 scenario
fixes the `(0-4, not special)` rate at 100 currency units; the remaining
entries are representative fixed constants of the same pattern. -/
def DEFAULT_RATES : RateTable := fun a sc =>
  let base : ℚ :=
    match a with
    | .a0to4 => 100
    | .a5to10 => 110
    | .a11to15 => 120
    | .a16to17 => 130
  some (if sc then base + 50 else base)

/-- Modelled from the spec: the calculator module's entry point called at
`Index.tsx:86` as `calculateTotalAllowance(children, isExperiencedCarer)` —
two arguments, no rate-table argument; the table is the module-level
constant `DEFAULT_RATES`. -/
def calculateTotalAllowance (children : List ChildRecord)
    (isExperiencedCarer : Bool) : Except CalcError AllowanceResult :=
  compute children { isExperiencedCarer := isExperiencedCarer } DEFAULT_RATES

/-- The set of weeks an interval covers. -/
def weeks (i : WeekInterval) : Finset ℕ := Finset.Icc i.start i.«end»

/-- The set of weeks covered by a list of intervals. -/
def coveredWeeks : List WeekInterval → Finset ℕ
  | [] => ∅
  | i :: rest => weeks i ∪ coveredWeeks rest

/-- The spec's data-model invariant on a week interval (§3):
`1 ≤ start ≤ end ≤ 52`. -/
def Valid (i : WeekInterval) : Prop :=
  1 ≤ i.start ∧ i.start ≤ i.«end» ∧ i.«end» ≤ 52

instance (i : WeekInterval) : Decidable (Valid i) :=
  inferInstanceAs (Decidable (_ ∧ _ ∧ _))

/-- Separation of two intervals: the second starts at least two weeks after
the first ends, so they are disjoint and not even adjacent. -/
def gapSep (a b : WeekInterval) : Prop := a.«end» + 1 < b.start

theorem mem_coveredWeeks {w : ℕ} :
    ∀ {l : List WeekInterval}, w ∈ coveredWeeks l ↔
      ∃ i ∈ l, i.start ≤ w ∧ w ≤ i.«end»
  | [] => by simp [coveredWeeks]
  | i :: rest => by
    simp [coveredWeeks, weeks, Finset.mem_union, Finset.mem_Icc,
      mem_coveredWeeks (l := rest)]

theorem coveredWeeks_perm {l l' : List WeekInterval} (h : l.Perm l') :
    coveredWeeks l = coveredWeeks l' := by
  ext w
  simp only [mem_coveredWeeks]
  constructor
  · rintro ⟨i, hi, hw⟩; exact ⟨i, h.mem_iff.mp hi, hw⟩
  · rintro ⟨i, hi, hw⟩; exact ⟨i, h.mem_iff.mpr hi, hw⟩

theorem weeks_subset_coveredWeeks {i : WeekInterval} {l : List WeekInterval}
    (hi : i ∈ l) : weeks i ⊆ coveredWeeks l := by
  intro w hw
  rw [weeks, Finset.mem_Icc] at hw
  exact mem_coveredWeeks.mpr ⟨i, hi, hw⟩

theorem coalesceFrom_cover (cur : WeekInterval) (l : List WeekInterval)
    (hs : List.Sorted startLE (cur :: l)) :
    coveredWeeks (coalesceFrom cur l) = weeks cur ∪ coveredWeeks l := by
  induction l generalizing cur with
  | nil => simp [coalesceFrom, coveredWeeks]
  | cons j rest ih =>
    rw [List.sorted_cons] at hs
    obtain ⟨hcur, hjrest⟩ := hs
    rw [List.sorted_cons] at hjrest
    obtain ⟨hj, hrest⟩ := hjrest
    by_cases habs : j.start ≤ cur.«end» + 1
    · have hcj : startLE cur j := hcur j (by simp)
      have hsorted : List.Sorted startLE
          ({ start := cur.start, «end» := max cur.«end» j.«end» } :: rest) := by
        rw [List.sorted_cons]
        exact ⟨fun b hb => Nat.le_trans hcj (hj b hb), hrest⟩
      have hweeks : weeks { start := cur.start, «end» := max cur.«end» j.«end» } =
          weeks cur ∪ weeks j := by
        ext w
        simp only [weeks, Finset.mem_Icc, Finset.mem_union]
        unfold startLE at hcj
        omega
      simp only [coalesceFrom, if_pos habs]
      rw [ih _ hsorted, hweeks, coveredWeeks, Finset.union_assoc]
    · simp only [coalesceFrom, if_neg habs]
      rw [coveredWeeks, coveredWeeks,
        ih j (by rw [List.sorted_cons]; exact ⟨hj, hrest⟩)]

theorem coalesceFrom_head (cur : WeekInterval) (l : List WeekInterval) :
    ∃ hd tl, coalesceFrom cur l = hd :: tl ∧ hd.start = cur.start := by
  induction l generalizing cur with
  | nil => exact ⟨cur, [], rfl, rfl⟩
  | cons j rest ih =>
    by_cases habs : j.start ≤ cur.«end» + 1
    · obtain ⟨hd, tl, heq, hstart⟩ :=
        ih { start := cur.start, «end» := max cur.«end» j.«end» }
      exact ⟨hd, tl, by simpa [coalesceFrom, if_pos habs] using heq, hstart⟩
    · obtain ⟨hd, tl, heq, hstart⟩ := ih j
      exact ⟨cur, coalesceFrom j rest, by simp [coalesceFrom, if_neg habs], rfl⟩

theorem coalesceFrom_valid (cur : WeekInterval) (l : List WeekInterval)
    (hc : Valid cur) (hl : ∀ i ∈ l, Valid i) :
    ∀ i ∈ coalesceFrom cur l, Valid i := by
  induction l generalizing cur with
  | nil => simpa [coalesceFrom] using hc
  | cons j rest ih =>
    have hj : Valid j := hl j (by simp)
    have hrest : ∀ i ∈ rest, Valid i := fun i hi => hl i (by simp [hi])
    by_cases habs : j.start ≤ cur.«end» + 1
    · simp only [coalesceFrom, if_pos habs]
      refine ih _ ?_ hrest
      obtain ⟨h1, h2, h3⟩ := hc
      obtain ⟨h1', h2', h3'⟩ := hj
      exact ⟨h1, by simp [Valid]; omega, by simp [Valid]; omega⟩
    · simp only [coalesceFrom, if_neg habs]
      intro i hi
      rcases List.mem_cons.mp hi with h | h
      · exact h ▸ hc
      · exact ih j hj hrest i h

theorem coalesceFrom_chain (cur : WeekInterval) (l : List WeekInterval)
    (hs : List.Sorted startLE (cur :: l)) :
    List.Chain' gapSep (coalesceFrom cur l) := by
  induction l generalizing cur with
  | nil => simp [coalesceFrom]
  | cons j rest ih =>
    rw [List.sorted_cons] at hs
    obtain ⟨hcur, hjrest⟩ := hs
    rw [List.sorted_cons] at hjrest
    obtain ⟨hj, hrest⟩ := hjrest
    by_cases habs : j.start ≤ cur.«end» + 1
    · have hcj : startLE cur j := hcur j (by simp)
      simp only [coalesceFrom, if_pos habs]
      exact ih _ (by
        rw [List.sorted_cons]
        exact ⟨fun b hb => Nat.le_trans hcj (hj b hb), hrest⟩)
    · simp only [coalesceFrom, if_neg habs]
      obtain ⟨hd, tl, heq, hstart⟩ := coalesceFrom_head j rest
      rw [List.chain'_cons']
      constructor
      · intro y hy
        rw [heq] at hy
        simp only [List.head?_cons, Option.mem_def, Option.some.injEq] at hy
        subst hy
        show cur.«end» + 1 < hd.start
        rw [hstart]
        omega
      · exact ih j (by rw [List.sorted_cons]; exact ⟨hj, hrest⟩)

theorem chain_gapSep_pairwise :
    ∀ {l : List WeekInterval}, (∀ i ∈ l, i.start ≤ i.«end») →
      List.Chain' gapSep l → List.Pairwise gapSep l
  | [], _, _ => List.Pairwise.nil
  | [i], _, _ => by simp
  | i :: j :: rest, hv, hc => by
    rw [List.chain'_cons] at hc
    obtain ⟨hij, hc'⟩ := hc
    have hv' : ∀ a ∈ j :: rest, a.start ≤ a.«end» := fun a ha =>
      hv a (by simp [List.mem_cons.mp ha])
    have hp : List.Pairwise gapSep (j :: rest) := chain_gapSep_pairwise hv' hc'
    refine List.Pairwise.cons ?_ hp
    intro a ha
    rcases List.mem_cons.mp ha with h | h
    · exact h ▸ hij
    · have hja : gapSep j a := (List.pairwise_cons.mp hp).1 a h
      have hjv : j.start ≤ j.«end» := hv j (by simp)
      show i.«end» + 1 < a.start
      unfold gapSep at hij hja
      omega

theorem sumLens_eq_card :
    ∀ {l : List WeekInterval}, (∀ i ∈ l, i.start ≤ i.«end») →
      List.Pairwise gapSep l → sumLens l = (coveredWeeks l).card
  | [], _, _ => by simp [sumLens, coveredWeeks]
  | i :: rest, hv, hp => by
    rw [List.pairwise_cons] at hp
    obtain ⟨hi, hp'⟩ := hp
    have hdisj : Disjoint (weeks i) (coveredWeeks rest) := by
      rw [Finset.disjoint_left]
      intro w hw hw'
      rw [weeks, Finset.mem_Icc] at hw
      obtain ⟨j, hj, hjw⟩ := mem_coveredWeeks.mp hw'
      have := hi j hj
      unfold gapSep at this
      omega
    have hrest : ∀ j ∈ rest, j.start ≤ j.«end» := fun j hj =>
      hv j (by simp [hj])
    calc sumLens (i :: rest)
        = intervalLen i + sumLens rest := by simp [sumLens]
      _ = (weeks i).card + (coveredWeeks rest).card := by
          rw [sumLens_eq_card hrest hp', weeks, Nat.card_Icc, intervalLen]
      _ = (coveredWeeks (i :: rest)).card := by
          rw [coveredWeeks, Finset.card_union_of_disjoint hdisj]

theorem sortByStart_perm (l : List WeekInterval) : (sortByStart l).Perm l :=
  List.perm_insertionSort startLE l

theorem sortByStart_sorted (l : List WeekInterval) :
    List.Sorted startLE (sortByStart l) :=
  List.sorted_insertionSort startLE l

theorem normalizeIntervals_cover (l : List WeekInterval) :
    coveredWeeks (normalizeIntervals l) = coveredWeeks l := by
  have hperm := coveredWeeks_perm (sortByStart_perm l)
  rw [normalizeIntervals]
  cases hsort : sortByStart l with
  | nil => simpa [coalesce, hsort] using hperm
  | cons i rest =>
    have hs : List.Sorted startLE (i :: rest) := hsort ▸ sortByStart_sorted l
    rw [coalesce, coalesceFrom_cover i rest hs, ← coveredWeeks, ← hsort]
    exact hperm

theorem normalizeIntervals_chain (l : List WeekInterval) :
    List.Chain' gapSep (normalizeIntervals l) := by
  rw [normalizeIntervals]
  cases hsort : sortByStart l with
  | nil => simp [coalesce]
  | cons i rest =>
    have hs : List.Sorted startLE (i :: rest) := hsort ▸ sortByStart_sorted l
    exact coalesceFrom_chain i rest hs

theorem normalizeIntervals_valid {l : List WeekInterval}
    (hv : ∀ i ∈ l, Valid i) : ∀ i ∈ normalizeIntervals l, Valid i := by
  have hv' : ∀ i ∈ sortByStart l, Valid i := fun i hi =>
    hv i ((sortByStart_perm l).mem_iff.mp hi)
  rw [normalizeIntervals]
  cases hsort : sortByStart l with
  | nil => simp [coalesce]
  | cons i rest =>
    rw [coalesce]
    exact coalesceFrom_valid i rest (hv' i (by rw [hsort]; simp))
      (fun j hj => hv' j (by rw [hsort]; simp [hj]))

theorem normalizeIntervals_eq_nil_iff {l : List WeekInterval} :
    normalizeIntervals l = [] ↔ l = [] := by
  constructor
  · intro h
    rw [normalizeIntervals] at h
    cases hsort : sortByStart l with
    | nil =>
      have : l.length = 0 := by
        rw [← (sortByStart_perm l).length_eq, hsort, List.length_nil]
      exact List.length_eq_zero.mp this
    | cons i rest =>
      rw [hsort, coalesce] at h
      obtain ⟨hd, tl, heq, _⟩ := coalesceFrom_head i rest
      rw [heq] at h
      exact absurd h (List.cons_ne_nil hd tl)
  · intro h
    subst h
    rfl

theorem coveredWeeks_eq_empty_iff {l : List WeekInterval}
    (hv : ∀ i ∈ l, Valid i) : coveredWeeks l = ∅ ↔ l = [] := by
  constructor
  · intro h
    cases l with
    | nil => rfl
    | cons i rest =>
      exfalso
      obtain ⟨_, h2, _⟩ := hv i (by simp)
      have : i.start ∈ coveredWeeks (i :: rest) :=
        mem_coveredWeeks.mpr ⟨i, by simp, le_refl _, h2⟩
      rw [h] at this
      exact absurd this (Finset.not_mem_empty _)
  · intro h
    subst h
    rfl

/-- The central counting identity: for intervals satisfying the data-model
invariant, the active-week count is the cardinality of the set of covered
weeks — normalization removes every double count. -/
theorem activeWeekCount_eq_card {l : List WeekInterval}
    (hv : ∀ i ∈ l, Valid i) :
    activeWeekCount l = (coveredWeeks l).card := by
  have hvn : ∀ i ∈ normalizeIntervals l, Valid i := normalizeIntervals_valid hv
  have hse : ∀ i ∈ normalizeIntervals l, i.start ≤ i.«end» := fun i hi =>
    (hvn i hi).2.1
  rw [activeWeekCount,
    sumLens_eq_card hse (chain_gapSep_pairwise hse (normalizeIntervals_chain l)),
    normalizeIntervals_cover]

theorem pairwise_gapSep_sorted :
    ∀ {l : List WeekInterval}, (∀ i ∈ l, i.start ≤ i.«end») →
      List.Pairwise gapSep l → List.Sorted startLE l
  | [], _, _ => List.Pairwise.nil
  | i :: rest, hv, hp => by
    rw [List.pairwise_cons] at hp
    obtain ⟨hi, hp'⟩ := hp
    rw [List.sorted_cons]
    refine ⟨fun b hb => ?_, pairwise_gapSep_sorted
      (fun j hj => hv j (by simp [hj])) hp'⟩
    have h1 : i.start ≤ i.«end» := hv i (by simp)
    have h2 : gapSep i b := hi b hb
    unfold gapSep at h2
    show i.start ≤ b.start
    omega

theorem normalizeIntervals_sorted {l : List WeekInterval}
    (hv : ∀ i ∈ l, Valid i) : List.Sorted startLE (normalizeIntervals l) := by
  have hse : ∀ i ∈ normalizeIntervals l, i.start ≤ i.«end» := fun i hi =>
    (normalizeIntervals_valid hv i hi).2.1
  exact pairwise_gapSep_sorted hse
    (chain_gapSep_pairwise hse (normalizeIntervals_chain l))

theorem coalesceFrom_of_sep :
    ∀ {cur : WeekInterval} {l : List WeekInterval},
      (∀ y ∈ l.head?, gapSep cur y) → List.Chain' gapSep l →
      coalesceFrom cur l = cur :: l
  | _, [], _, _ => rfl
  | cur, j :: rest, hhd, hc => by
    have hgap : gapSep cur j := hhd j (by simp)
    have habs : ¬ j.start ≤ cur.«end» + 1 := by unfold gapSep at hgap; omega
    rw [List.chain'_cons'] at hc
    rw [coalesceFrom, if_neg habs, coalesceFrom_of_sep hc.1 hc.2]

theorem coalesce_of_chain {l : List WeekInterval}
    (hc : List.Chain' gapSep l) : coalesce l = l := by
  cases l with
  | nil => rfl
  | cons i rest =>
    rw [List.chain'_cons'] at hc
    rw [coalesce, coalesceFrom_of_sep hc.1 hc.2]

/-- Normalization is idempotent on interval lists satisfying the data-model
invariant: the output is sorted and gap-separated, so a second pass neither
re-sorts nor coalesces anything. -/
theorem normalizeIntervals_idem {l : List WeekInterval}
    (hv : ∀ i ∈ l, Valid i) :
    normalizeIntervals (normalizeIntervals l) = normalizeIntervals l := by
  have hsort : sortByStart (normalizeIntervals l) = normalizeIntervals l :=
    List.Sorted.insertionSort_eq (normalizeIntervals_sorted hv)
  rw [normalizeIntervals, hsort, coalesce_of_chain (normalizeIntervals_chain l)]

/-- The left endpoints of a week set: members whose predecessor week is not
in the set. A union of separated intervals has exactly one per interval. -/
def leftEnds (S : Finset ℕ) : Finset ℕ := S.filter (fun w => w - 1 ∉ S)

theorem leftEnds_card :
    ∀ {m : List WeekInterval}, (∀ i ∈ m, Valid i) → List.Pairwise gapSep m →
      (leftEnds (coveredWeeks m)).card = m.length
  | [], _, _ => by simp [leftEnds, coveredWeeks]
  | i :: rest, hv, hp => by
    rw [List.pairwise_cons] at hp
    obtain ⟨hi, hp'⟩ := hp
    obtain ⟨hv1, hv2, hv3⟩ := hv i (by simp)
    have hvrest : ∀ j ∈ rest, Valid j := fun j hj => hv j (by simp [hj])
    have hS' : ∀ w ∈ coveredWeeks rest, i.«end» + 1 < w := by
      intro w hw
      obtain ⟨j, hj, hjw⟩ := mem_coveredWeeks.mp hw
      have := hi j hj
      unfold gapSep at this
      omega
    have hins : leftEnds (coveredWeeks (i :: rest)) =
        insert i.start (leftEnds (coveredWeeks rest)) := by
      ext w
      constructor
      · intro hw
        rw [leftEnds, Finset.mem_filter] at hw
        obtain ⟨hwS, hwpred⟩ := hw
        rw [coveredWeeks, Finset.mem_union] at hwS
        rcases hwS with hwi | hwrest
        · rw [weeks, Finset.mem_Icc] at hwi
          have hw1 : w = i.start := by
            by_contra hne
            apply hwpred
            rw [coveredWeeks, Finset.mem_union]
            left
            rw [weeks, Finset.mem_Icc]
            omega
          simp [hw1]
        · rw [Finset.mem_insert]
          right
          rw [leftEnds, Finset.mem_filter]
          refine ⟨hwrest, fun hcon => ?_⟩
          apply hwpred
          rw [coveredWeeks, Finset.mem_union]
          right
          exact hcon
      · intro hw
        rw [leftEnds, Finset.mem_filter]
        rw [Finset.mem_insert] at hw
        rcases hw with hw1 | hwrest
        · subst hw1
          constructor
          · rw [coveredWeeks, Finset.mem_union]
            left
            rw [weeks, Finset.mem_Icc]
            omega
          · intro hcon
            rw [coveredWeeks, Finset.mem_union] at hcon
            rcases hcon with h | h
            · rw [weeks, Finset.mem_Icc] at h
              omega
            · have := hS' _ h
              omega
        · rw [leftEnds, Finset.mem_filter] at hwrest
          obtain ⟨hwS', hwpred'⟩ := hwrest
          have hwlarge := hS' _ hwS'
          constructor
          · rw [coveredWeeks, Finset.mem_union]
            right
            exact hwS'
          · intro hcon
            rw [coveredWeeks, Finset.mem_union] at hcon
            rcases hcon with h | h
            · rw [weeks, Finset.mem_Icc] at h
              omega
            · exact hwpred' h
    have hnotmem : i.start ∉ leftEnds (coveredWeeks rest) := by
      intro hcon
      have : i.start ∈ coveredWeeks rest := Finset.filter_subset _ _ hcon
      have := hS' _ this
      omega
    rw [hins, Finset.card_insert_of_not_mem hnotmem,
      leftEnds_card hvrest hp', List.length_cons, Nat.add_comm]

theorem leftEnds_inter_card_le (S : Finset ℕ) :
    ∀ (l : List WeekInterval), (∀ j ∈ l, weeks j ⊆ S) →
      (leftEnds S ∩ coveredWeeks l).card ≤ l.length
  | [], _ => by simp [coveredWeeks]
  | j :: rest, hsub => by
    have hone : (leftEnds S ∩ weeks j).card ≤ 1 := by
      rw [Finset.card_le_one]
      intro a ha b hb
      rw [Finset.mem_inter, leftEnds, Finset.mem_filter, weeks,
        Finset.mem_Icc] at ha hb
      obtain ⟨⟨_, hapred⟩, ha1, ha2⟩ := ha
      obtain ⟨⟨_, hbpred⟩, hb1, hb2⟩ := hb
      rcases Nat.lt_trichotomy a b with h | h | h
      · exfalso
        apply hbpred
        apply hsub j (by simp)
        rw [weeks, Finset.mem_Icc]
        omega
      · exact h
      · exfalso
        apply hapred
        apply hsub j (by simp)
        rw [weeks, Finset.mem_Icc]
        omega
    calc (leftEnds S ∩ coveredWeeks (j :: rest)).card
        = ((leftEnds S ∩ weeks j) ∪ (leftEnds S ∩ coveredWeeks rest)).card := by
          rw [coveredWeeks, Finset.inter_union_distrib_left]
      _ ≤ (leftEnds S ∩ weeks j).card +
            (leftEnds S ∩ coveredWeeks rest).card := Finset.card_union_le _ _
      _ ≤ 1 + rest.length := by
          exact Nat.add_le_add hone
            (leftEnds_inter_card_le S rest fun i hi => hsub i (by simp [hi]))
      _ = (j :: rest).length := by rw [List.length_cons, Nat.add_comm]

/-- Minimality of normalization: no interval list satisfying the data-model
invariant covers the same weeks with fewer intervals. -/
theorem normalizeIntervals_minimal {l l' : List WeekInterval}
    (hv : ∀ i ∈ l, Valid i) (_hv' : ∀ i ∈ l', Valid i)
    (hcov : coveredWeeks l' = coveredWeeks l) :
    (normalizeIntervals l).length ≤ l'.length := by
  have hvn : ∀ i ∈ normalizeIntervals l, Valid i := normalizeIntervals_valid hv
  have hse : ∀ i ∈ normalizeIntervals l, i.start ≤ i.«end» := fun i hi =>
    (hvn i hi).2.1
  have hm : (leftEnds (coveredWeeks l)).card = (normalizeIntervals l).length := by
    rw [← normalizeIntervals_cover l]
    exact leftEnds_card hvn
      (chain_gapSep_pairwise hse (normalizeIntervals_chain l))
  have hsubS : leftEnds (coveredWeeks l) ⊆ coveredWeeks l' := by
    rw [hcov]
    exact Finset.filter_subset _ _
  have hinter : leftEnds (coveredWeeks l) ∩ coveredWeeks l' =
      leftEnds (coveredWeeks l) := Finset.inter_eq_left.mpr hsubS
  have hle := leftEnds_inter_card_le (coveredWeeks l) l'
    (fun j hj => (weeks_subset_coveredWeeks hj).trans hcov.le)
  rw [hinter, hm] at hle
  exact hle

/-- The per-child yearly amount as an independently computable function
(spec §4.1 Step 5: `yearlyAmountForChild = adjustedWeeklyRate × activeWeekCount`);
a missing rate never reaches this figure on a successful calculation. -/
def childYearly (ctx : HouseholdContext) (rates : RateTable)
    (c : ChildRecord) : ℚ :=
  match rates c.ageGroup c.isSpecialCare with
  | none => 0
  | some base => adjustRate ctx base * (activeWeekCount c.weekIntervals : ℚ)

/-- The per-child contribution to the steady-state weekly total (spec §4.1
Steps 5-6): the adjusted weekly rate for a child with at least one active
interval, zero otherwise. -/
def childWeekly (ctx : HouseholdContext) (rates : RateTable)
    (c : ChildRecord) : ℚ :=
  match rates c.ageGroup c.isSpecialCare with
  | none => 0
  | some base =>
    if normalizeIntervals c.weekIntervals = [] then 0 else adjustRate ctx base

theorem computeChildren_error (ctx : HouseholdContext) (rates : RateTable) :
    ∀ cs : List ChildRecord,
      (∃ c ∈ cs, rates c.ageGroup c.isSpecialCare = none) →
      ∃ a b, computeChildren ctx rates cs =
          .error (.configurationError a b) ∧ rates a b = none
  | [], h => absurd h (by simp)
  | c :: rest, h => by
    cases hr : rates c.ageGroup c.isSpecialCare with
    | none =>
      exact ⟨c.ageGroup, c.isSpecialCare,
        by simp [computeChildren, computeChild, hr], hr⟩
    | some base =>
      have hrest : ∃ c' ∈ rest, rates c'.ageGroup c'.isSpecialCare = none := by
        obtain ⟨c', hc', hnone⟩ := h
        rcases List.mem_cons.mp hc' with he | hm
        · rw [he, hr] at hnone
          exact absurd hnone (by simp)
        · exact ⟨c', hm, hnone⟩
      obtain ⟨a, b, herr, hnone⟩ := computeChildren_error ctx rates rest hrest
      exact ⟨a, b, by simp [computeChildren, computeChild, hr, herr], hnone⟩

theorem computeChildren_ok_maps (ctx : HouseholdContext) (rates : RateTable) :
    ∀ {cs : List ChildRecord} {rs : List ChildResult},
      computeChildren ctx rates cs = .ok rs →
      rs.map (·.yearlyAmount) = cs.map (childYearly ctx rates) ∧
      rs.map (·.weeklyContribution) = cs.map (childWeekly ctx rates)
  | [], rs, h => by
    rw [computeChildren] at h
    cases h
    simp
  | c :: rest, rs, h => by
    rw [computeChildren] at h
    cases hr : rates c.ageGroup c.isSpecialCare with
    | none => rw [computeChild, hr] at h; cases h
    | some base =>
      rw [computeChild, hr] at h
      cases hrest : computeChildren ctx rates rest with
      | error e => rw [hrest] at h; cases h
      | ok rs' =>
        rw [hrest] at h
        cases h
        obtain ⟨hy, hw⟩ := computeChildren_ok_maps ctx rates hrest
        constructor
        · simp [childYearly, hr, hy]
        · simp [childWeekly, hr, hw]

theorem computeChildren_ok_of_isSome (ctx : HouseholdContext)
    (rates : RateTable) :
    ∀ cs : List ChildRecord,
      (∀ c ∈ cs, (rates c.ageGroup c.isSpecialCare).isSome) →
      ∃ rs, computeChildren ctx rates cs = .ok rs
  | [], _ => ⟨[], rfl⟩
  | c :: rest, h => by
    cases hr : rates c.ageGroup c.isSpecialCare with
    | none =>
      have := h c (by simp)
      rw [hr] at this
      exact absurd this (by simp)
    | some base =>
      obtain ⟨rs, hrs⟩ :=
        computeChildren_ok_of_isSome ctx rates rest
          (fun c' hc' => h c' (by simp [hc']))
      refine ⟨(⟨if normalizeIntervals c.weekIntervals = [] then 0
          else adjustRate ctx base,
          adjustRate ctx base * (activeWeekCount c.weekIntervals : ℚ)⟩ :
          ChildResult) :: rs, ?_⟩
      simp [computeChildren, computeChild, hr, hrs]

theorem compute_ok_totals {cs : List ChildRecord} {ctx : HouseholdContext}
    {rates : RateTable} {res : AllowanceResult}
    (h : compute cs ctx rates = .ok res) :
    res.yearlyTotal = (cs.map (childYearly ctx rates)).sum ∧
    res.weeklyTotal = (cs.map (childWeekly ctx rates)).sum ∧
    res.monthlyTotal = res.yearlyTotal / 12 := by
  rw [compute] at h
  cases hc : computeChildren ctx rates cs with
  | error e => rw [hc] at h; cases h
  | ok rs =>
    rw [hc] at h
    cases h
    obtain ⟨hy, hw⟩ := computeChildren_ok_maps ctx rates hc
    exact ⟨by simp [hy], by simp [hw], rfl⟩

theorem compute_congr_rates {cs : List ChildRecord} {ctx : HouseholdContext}
    {r1 r2 : RateTable} (h : ∀ a b, r1 a b = r2 a b) :
    compute cs ctx r1 = compute cs ctx r2 := by
  have hcc : ∀ cs' : List ChildRecord,
      computeChildren ctx r1 cs' = computeChildren ctx r2 cs' := by
    intro cs'
    induction cs' with
    | nil => rfl
    | cons c rest ih =>
      rw [computeChildren, computeChildren, computeChild, computeChild, h, ih]
  rw [compute, compute, hcc]

/-- The spec's §8 first concrete scenario child: age bracket `0-4`, not
special care, active the whole year. -/
def demoChild : ChildRecord :=
  { id := "1", ageGroup := .a0to4, isSpecialCare := false
    weekIntervals := [⟨1, 52⟩] }

/-- A rate table with every entry zeroed, used to exhibit that the result of
the two-argument call site is pinned to the module-level table. -/
def zeroRates : RateTable := fun _ _ => some 0

/-- A rate table lacking exactly the `(0-4, not special)` entry. -/
def missingRates : RateTable := fun a sc =>
  match a, sc with
  | .a0to4, false => none
  | _, _ => DEFAULT_RATES a sc

/-! ## The wizard page state machine (`src/pages/Index.tsx`)

`Index.tsx` keeps a `children` list in React state. The initial state and
every handler that touches the list are embedded below; the calculator is
invoked at `Index.tsx:86` on the current list. -/

/-- The default child record used by the page: `Index.tsx:29-34`
(`id: "1", ageGroup: "0-4", isSpecialCare: false,
weekIntervals: [{start: 1, end: 52}]`) and, with a fresh id, by
`handleAddChild` (`Index.tsx:62-67`). -/
def defaultChild (id : String) : ChildRecord :=
  { id := id, ageGroup := .a0to4, isSpecialCare := false
    weekIntervals := [⟨1, 52⟩] }

/-- Initial `children` state of the page (`Index.tsx:28-35`), also restored
by `handleReset` (`Index.tsx:155-160`). -/
def initialChildren : List ChildRecord := [defaultChild "1"]

/-- Modelled from the spec: the update payload `ChildForm` passes to
`handleUpdateChild` (`ChildForm.tsx` is absent from the sources). It edits
the care fields of §3's `ChildRecord`; the `id` stays untouched, as §3
requires ids to be unique within a submission. -/
structure ChildPatch where
  ageGroup : Option AgeGroup
  isSpecialCare : Option Bool
  weekIntervals : Option (List WeekInterval)

/-- Spread-merge of a partial update into a child record
(`Index.tsx:73`, `{ ...child, ...data }`). -/
def applyPatch (c : ChildRecord) (p : ChildPatch) : ChildRecord :=
  { c with
    ageGroup := p.ageGroup.getD c.ageGroup
    isSpecialCare := p.isSpecialCare.getD c.isSpecialCare
    weekIntervals := p.weekIntervals.getD c.weekIntervals }

/-- The page events that touch the `children` state: `handleAddChild`
(`Index.tsx:59-69`, with the id produced by `crypto.randomUUID()`),
`handleUpdateChild` (`Index.tsx:71-75`), `handleRemoveChild`
(`Index.tsx:77-81`) and `handleReset` (`Index.tsx:147-162`). -/
inductive PageEvent where
  | addChild (newId : String)
  | updateChild (id : String) (p : ChildPatch)
  | removeChild (id : String)
  | reset

/-- One state transition of the page's `children` list, embedded handler by
handler from `Index.tsx`. `removeChild` filters only when more than one
child remains (`if (children.length > 1)`). -/
def pageStep (children : List ChildRecord) : PageEvent → List ChildRecord
  | .addChild newId => children ++ [defaultChild newId]
  | .updateChild id p =>
    children.map fun c => if c.id = id then applyPatch c p else c
  | .removeChild id =>
    if 1 < children.length then children.filter (fun c => c.id ≠ id)
    else children
  | .reset => initialChildren

/-- A run of the page: fold the events over the state. -/
def runPage : List ChildRecord → List PageEvent → List ChildRecord
  | s, [] => s
  | s, e :: es => runPage (pageStep s e) es

/-- An add event carries a fresh id, as `crypto.randomUUID()` guarantees in
practice; other events are unconstrained. -/
def freshId (children : List ChildRecord) : PageEvent → Prop
  | .addChild newId => newId ∉ children.map (·.id)
  | _ => True

instance (children : List ChildRecord) (e : PageEvent) :
    Decidable (freshId children e) := by
  cases e with
  | addChild newId =>
    exact inferInstanceAs (Decidable (newId ∉ children.map (·.id)))
  | updateChild id p => exact inferInstanceAs (Decidable True)
  | removeChild id => exact inferInstanceAs (Decidable True)
  | reset => exact inferInstanceAs (Decidable True)

/-- A run in which every add uses an id fresh at the moment it happens. -/
def FreshRun : List ChildRecord → List PageEvent → Prop
  | _, [] => True
  | s, e :: es => freshId s e ∧ FreshRun (pageStep s e) es

/-- The invariant that makes the page's removal guard sufficient: the list
is nonempty and child ids are pairwise distinct. -/
def PageInv (s : List ChildRecord) : Prop :=
  s ≠ [] ∧ (s.map (·.id)).Nodup

theorem applyPatch_id (c : ChildRecord) (p : ChildPatch) :
    (applyPatch c p).id = c.id := rfl

theorem pageStep_preserves (s : List ChildRecord) (e : PageEvent)
    (hinv : PageInv s) (hfresh : freshId s e) : PageInv (pageStep s e) := by
  obtain ⟨hne, hnd⟩ := hinv
  cases e with
  | addChild newId =>
    constructor
    · simp [pageStep]
    · rw [pageStep, List.map_append]
      simp only [freshId] at hfresh
      rw [List.nodup_append]
      refine ⟨hnd, by simp, ?_⟩
      intro a ha hb
      simp only [defaultChild, List.map_cons, List.map_nil, List.mem_cons,
        List.not_mem_nil, or_false] at hb
      exact hfresh (hb ▸ ha)
  | updateChild id p =>
    constructor
    · simp only [pageStep]
      intro hcon
      exact hne (List.map_eq_nil_iff.mp hcon)
    · simp only [pageStep]
      have hids : (s.map fun c => if c.id = id then applyPatch c p else c).map
          (·.id) = s.map (·.id) := by
        rw [List.map_map]
        apply List.map_congr_left
        intro c _
        by_cases h : c.id = id <;> simp [h, applyPatch_id]
      rw [hids]
      exact hnd
  | removeChild id =>
    by_cases hlen : 1 < s.length
    · simp only [pageStep, if_pos hlen]
      constructor
      · rcases s with _ | ⟨a, _ | ⟨b, rest⟩⟩
        · simp at hlen
        · simp at hlen
        · have hab : a.id ≠ b.id := by
            simp only [List.map_cons, List.nodup_cons, List.mem_cons] at hnd
            exact fun h => hnd.1 (Or.inl h)
          by_cases ha : a.id = id
          · have hb : b.id ≠ id := fun h => hab (ha.trans h.symm)
            intro hcon
            have hmem : b ∈ List.filter (fun c => c.id ≠ id) (a :: b :: rest) := by
              rw [List.mem_filter]
              exact ⟨by simp, by simpa using hb⟩
            rw [hcon] at hmem
            exact absurd hmem (List.not_mem_nil b)
          · intro hcon
            have hmem : a ∈ List.filter (fun c => c.id ≠ id) (a :: b :: rest) := by
              rw [List.mem_filter]
              exact ⟨by simp, by simpa using ha⟩
            rw [hcon] at hmem
            exact absurd hmem (List.not_mem_nil a)
      · exact List.Nodup.sublist
          ((List.filter_sublist s).map (·.id)) hnd
    · simp only [pageStep, if_neg hlen]
      exact ⟨hne, hnd⟩
  | reset =>
    exact ⟨by simp [pageStep, initialChildren],
      by simp [pageStep, initialChildren]⟩

theorem runPage_preserves :
    ∀ (es : List PageEvent) (s : List ChildRecord),
      PageInv s → FreshRun s es → PageInv (runPage s es)
  | [], _, hinv, _ => hinv
  | e :: es, s, hinv, hfr =>
    runPage_preserves es (pageStep s e)
      (pageStep_preserves s e hinv hfr.1) hfr.2

/-! ## The claims -/

/-- C1: for a fixed set of covered weeks, any decomposition of that set into
possibly overlapping, possibly unordered week intervals yields the same
`activeWeekCount` and the same per-child contribution to the calculation —
no week is double-counted. -/
theorem claim_overlap_invariance (l1 l2 : List WeekInterval)
    (hv1 : ∀ i ∈ l1, Valid i) (hv2 : ∀ i ∈ l2, Valid i)
    (hcov : coveredWeeks l1 = coveredWeeks l2) :
    activeWeekCount l1 = activeWeekCount l2 ∧
    ∀ (id : String) (ag : AgeGroup) (sc : Bool) (ctx : HouseholdContext)
      (rates : RateTable),
      computeChild ctx rates ⟨id, ag, sc, l1⟩ =
        computeChild ctx rates ⟨id, ag, sc, l2⟩ := by
  have hawc : activeWeekCount l1 = activeWeekCount l2 := by
    rw [activeWeekCount_eq_card hv1, activeWeekCount_eq_card hv2, hcov]
  have hnil : (normalizeIntervals l1 = []) ↔ (normalizeIntervals l2 = []) := by
    rw [normalizeIntervals_eq_nil_iff, normalizeIntervals_eq_nil_iff,
      ← coveredWeeks_eq_empty_iff hv1, ← coveredWeeks_eq_empty_iff hv2, hcov]
  refine ⟨hawc, fun id ag sc ctx rates => ?_⟩
  rw [computeChild, computeChild]
  cases hr : rates ag sc with
  | none => rfl
  | some base =>
    have hif : (if normalizeIntervals l1 = [] then (0 : ℚ)
          else adjustRate ctx base) =
        (if normalizeIntervals l2 = [] then (0 : ℚ)
          else adjustRate ctx base) :=
      if_congr hnil rfl rfl
    dsimp only
    rw [hif, hawc]

/-- C1 witness: the two decompositions `[1,10] ∪ [5,20]` and `[1,20]` of the
same 20 weeks get the same active-week count. -/
theorem claim_overlap_invariance_witness :
    activeWeekCount [⟨1, 10⟩, ⟨5, 20⟩] = activeWeekCount [⟨1, 20⟩] :=
  (claim_overlap_invariance [⟨1, 10⟩, ⟨5, 20⟩] [⟨1, 20⟩]
    (by decide) (by decide) (by decide)).1

/-- C2: normalization covers the same weeks with a sorted, gap-separated —
hence disjoint and minimal — interval list, is idempotent, and on the spec's
examples coalesces `[1,10],[5,20]` and `[1,10],[11,20]` to `[1,20]` while
leaving `[1,10],[12,20]` separate. -/
theorem claim_normalization :
    (∀ l : List WeekInterval, (∀ i ∈ l, Valid i) →
      coveredWeeks (normalizeIntervals l) = coveredWeeks l ∧
      List.Sorted startLE (normalizeIntervals l) ∧
      List.Chain' gapSep (normalizeIntervals l) ∧
      (∀ l' : List WeekInterval, (∀ i ∈ l', Valid i) →
        coveredWeeks l' = coveredWeeks l →
        (normalizeIntervals l).length ≤ l'.length) ∧
      normalizeIntervals (normalizeIntervals l) = normalizeIntervals l) ∧
    normalizeIntervals [⟨1, 10⟩, ⟨5, 20⟩] = [⟨1, 20⟩] ∧
    normalizeIntervals [⟨1, 10⟩, ⟨11, 20⟩] = [⟨1, 20⟩] ∧
    normalizeIntervals [⟨1, 10⟩, ⟨12, 20⟩] = [⟨1, 10⟩, ⟨12, 20⟩] :=
  ⟨fun l hv => ⟨normalizeIntervals_cover l, normalizeIntervals_sorted hv,
      normalizeIntervals_chain l,
      fun l' hv' hc => normalizeIntervals_minimal hv hv' hc,
      normalizeIntervals_idem hv⟩,
    by decide, by decide, by decide⟩

/-- C2 witness: idempotence at a concrete already-overlapping input. -/
theorem claim_normalization_witness :
    normalizeIntervals (normalizeIntervals [⟨1, 10⟩, ⟨5, 20⟩]) =
      normalizeIntervals [⟨1, 10⟩, ⟨5, 20⟩] :=
  (claim_normalization.1 [⟨1, 10⟩, ⟨5, 20⟩] (by decide)).2.2.2.2

/-- C3: a child whose `(ageGroup, isSpecialCare)` pair has no rate-table
entry makes the whole calculation fail with a `ConfigurationError` naming a
missing pair; no `.ok` result — with a zero or any other default — is ever
returned. -/
theorem claim_missing_rate (cs : List ChildRecord) (ctx : HouseholdContext)
    (rates : RateTable)
    (h : ∃ c ∈ cs, rates c.ageGroup c.isSpecialCare = none) :
    (∃ a b, compute cs ctx rates = .error (.configurationError a b) ∧
      rates a b = none) ∧
    ∀ res : AllowanceResult, compute cs ctx rates ≠ .ok res := by
  obtain ⟨a, b, herr, hnone⟩ := computeChildren_error ctx rates cs h
  have hc : compute cs ctx rates = .error (.configurationError a b) := by
    rw [compute, herr]
  refine ⟨⟨a, b, hc, hnone⟩, fun res hcon => ?_⟩
  rw [hc] at hcon
  cases hcon

/-- C3 witness: the spec scenario child against a table missing exactly its
pair. -/
theorem claim_missing_rate_witness :
    ∃ a b, compute [demoChild] ⟨false⟩ missingRates =
        .error (.configurationError a b) ∧ missingRates a b = none :=
  (claim_missing_rate [demoChild] ⟨false⟩ missingRates
    ⟨demoChild, by simp, rfl⟩).1

/-- C4: on every successful calculation the monthly total is exactly the
yearly total divided by 12 — a derived projection, never an independent
sum (the model computes in ℚ, which is exact for the decimal-safe
arithmetic the spec prescribes). -/
theorem claim_monthly_derivation (cs : List ChildRecord)
    (ctx : HouseholdContext) (rates : RateTable) (res : AllowanceResult)
    (h : compute cs ctx rates = .ok res) :
    res.monthlyTotal = res.yearlyTotal / 12 :=
  (compute_ok_totals h).2.2

/-- C4 witness: the full-year spec scenario, where `5200 / 12 = 1300/3`. -/
theorem claim_monthly_derivation_witness :
    ({ weeklyTotal := 100, monthlyTotal := 1300 / 3, yearlyTotal := 5200 } :
        AllowanceResult).monthlyTotal =
      ({ weeklyTotal := 100, monthlyTotal := 1300 / 3, yearlyTotal := 5200 } :
        AllowanceResult).yearlyTotal / 12 :=
  claim_monthly_derivation [demoChild] ⟨false⟩ DEFAULT_RATES _ (by
    simp [compute, computeChildren, computeChild, DEFAULT_RATES, adjustRate,
      activeWeekCount, normalizeIntervals, sortByStart, coalesce, coalesceFrom,
      sumLens, intervalLen, List.insertionSort, List.orderedInsert, demoChild]
    norm_num)

/-- C5: on every successful calculation the yearly total is the sum over the
children of the independently computable per-child figure
`adjustedWeeklyRate × activeWeekCount`; in the spec's concrete scenario
(one `0-4` non-special child active weeks 1-52, base rate 100, household not
experienced) the yearly total is 5200. -/
theorem claim_yearly_additivity :
    (∀ (cs : List ChildRecord) (ctx : HouseholdContext) (rates : RateTable)
      (res : AllowanceResult), compute cs ctx rates = .ok res →
        res.yearlyTotal = (cs.map (childYearly ctx rates)).sum) ∧
    compute [demoChild] ⟨false⟩ DEFAULT_RATES =
      .ok { weeklyTotal := 100, monthlyTotal := 1300 / 3, yearlyTotal := 5200 } :=
  ⟨fun _ _ _ _ h => (compute_ok_totals h).1, by
    simp [compute, computeChildren, computeChild, DEFAULT_RATES, adjustRate,
      activeWeekCount, normalizeIntervals, sortByStart, coalesce, coalesceFrom,
      sumLens, intervalLen, List.insertionSort, List.orderedInsert, demoChild]
    norm_num⟩

/-- C5 witness: additivity instantiated at the spec scenario. -/
theorem claim_yearly_additivity_witness :
    ({ weeklyTotal := 100, monthlyTotal := 1300 / 3, yearlyTotal := 5200 } :
        AllowanceResult).yearlyTotal =
      ([demoChild].map (childYearly ⟨false⟩ DEFAULT_RATES)).sum :=
  claim_yearly_additivity.1 [demoChild] ⟨false⟩ DEFAULT_RATES _
    claim_yearly_additivity.2

/-- C6: on every successful calculation the weekly total sums the adjusted
weekly rates of exactly the children with at least one active interval; a
child with zero intervals contributes zero to every total, and a child with
any active interval contributes its full adjusted weekly rate — the
"while active" rate, not a 52-week average. -/
theorem claim_weekly_total :
    (∀ (cs : List ChildRecord) (ctx : HouseholdContext) (rates : RateTable)
      (res : AllowanceResult), compute cs ctx rates = .ok res →
        res.weeklyTotal = (cs.map (childWeekly ctx rates)).sum) ∧
    (∀ (ctx : HouseholdContext) (rates : RateTable) (id : String)
      (ag : AgeGroup) (sc : Bool),
        childWeekly ctx rates ⟨id, ag, sc, []⟩ = 0 ∧
        childYearly ctx rates ⟨id, ag, sc, []⟩ = 0) ∧
    (∀ (ctx : HouseholdContext) (rates : RateTable) (c : ChildRecord)
      (base : ℚ), rates c.ageGroup c.isSpecialCare = some base →
        c.weekIntervals ≠ [] → childWeekly ctx rates c = adjustRate ctx base) := by
  refine ⟨fun _ _ _ _ h => (compute_ok_totals h).2.1, ?_, ?_⟩
  · intro ctx rates id ag sc
    cases hr : rates ag sc with
    | none => simp [childWeekly, childYearly, hr]
    | some base =>
      constructor
      · simp [childWeekly, hr]
        intro hcon
        exact absurd rfl hcon
      · simp [childYearly, hr, activeWeekCount, sumLens]
        right
        rfl
  · intro ctx rates c base hr hne
    rw [childWeekly, hr]
    dsimp only
    rw [if_neg (fun hcon => hne (normalizeIntervals_eq_nil_iff.mp hcon))]

/-- C6 witness: one child active 10 of 52 weeks contributes its full
adjusted weekly rate to the weekly total. -/
theorem claim_weekly_total_witness :
    ({ weeklyTotal := 100, monthlyTotal := 250 / 3, yearlyTotal := 1000 } :
        AllowanceResult).weeklyTotal =
      ([⟨"2", .a0to4, false, [⟨1, 10⟩]⟩].map
        (childWeekly ⟨false⟩ DEFAULT_RATES)).sum :=
  claim_weekly_total.1 [⟨"2", .a0to4, false, [⟨1, 10⟩]⟩] ⟨false⟩
    DEFAULT_RATES _ (by
      simp [compute, computeChildren, computeChild, DEFAULT_RATES, adjustRate,
        activeWeekCount, normalizeIntervals, sortByStart, coalesce,
        coalesceFrom, sumLens, intervalLen, List.insertionSort,
        List.orderedInsert]
      norm_num)

/-- C7: for intervals satisfying the data-model invariant the active-week
count never exceeds 52 — purely a consequence of coalescing, the definition
carries no extra clamp — and `[1,52]` with `[10,20]` coalesces to `[1,52]`
with exactly 52 active weeks. -/
theorem claim_weekcount_cap :
    (∀ l : List WeekInterval, (∀ i ∈ l, Valid i) → activeWeekCount l ≤ 52) ∧
    normalizeIntervals [⟨1, 52⟩, ⟨10, 20⟩] = [⟨1, 52⟩] ∧
    activeWeekCount [⟨1, 52⟩, ⟨10, 20⟩] = 52 := by
  refine ⟨fun l hv => ?_, by decide, by decide⟩
  rw [activeWeekCount_eq_card hv]
  have hsub : coveredWeeks l ⊆ Finset.Icc 1 52 := by
    intro w hw
    obtain ⟨i, hi, hw1, hw2⟩ := mem_coveredWeeks.mp hw
    obtain ⟨h1, h2, h3⟩ := hv i hi
    rw [Finset.mem_Icc]
    omega
  calc (coveredWeeks l).card ≤ (Finset.Icc 1 52).card := Finset.card_le_card hsub
    _ = 52 := by rw [Nat.card_Icc]

/-- C7 witness: the cap applied to the overlapping concrete input. -/
theorem claim_weekcount_cap_witness :
    activeWeekCount [⟨1, 52⟩, ⟨10, 20⟩] ≤ 52 :=
  claim_weekcount_cap.1 [⟨1, 52⟩, ⟨10, 20⟩] (by decide)

/-- C8: switching `isExperiencedCarer` from false to true rescales every
resolved rate, every child's weekly and yearly figure, and all three
household totals by the one fixed multiplier `experienceMultiplier` — a
uniformly multiplicative rule, identical for all children, never a mix. -/
theorem claim_experience_uniform :
    (∀ base : ℚ, adjustRate ⟨true⟩ base =
      experienceMultiplier * adjustRate ⟨false⟩ base) ∧
    (∀ (rates : RateTable) (c : ChildRecord),
      childWeekly ⟨true⟩ rates c =
        experienceMultiplier * childWeekly ⟨false⟩ rates c ∧
      childYearly ⟨true⟩ rates c =
        experienceMultiplier * childYearly ⟨false⟩ rates c) ∧
    (∀ (cs : List ChildRecord) (rates : RateTable)
      (resF resT : AllowanceResult),
      compute cs ⟨false⟩ rates = .ok resF →
      compute cs ⟨true⟩ rates = .ok resT →
      resT.weeklyTotal = experienceMultiplier * resF.weeklyTotal ∧
      resT.yearlyTotal = experienceMultiplier * resF.yearlyTotal ∧
      resT.monthlyTotal = experienceMultiplier * resF.monthlyTotal) := by
  have hadj : ∀ base : ℚ, adjustRate ⟨true⟩ base =
      experienceMultiplier * adjustRate ⟨false⟩ base := by
    intro base
    simp [adjustRate]
  have hcw : ∀ (rates : RateTable) (c : ChildRecord),
      childWeekly ⟨true⟩ rates c =
        experienceMultiplier * childWeekly ⟨false⟩ rates c := by
    intro rates c
    rw [childWeekly, childWeekly]
    cases hr : rates c.ageGroup c.isSpecialCare with
    | none => simp
    | some base =>
      by_cases hn : normalizeIntervals c.weekIntervals = []
      · simp [hn]
      · simp [hn, hadj]
  have hcy : ∀ (rates : RateTable) (c : ChildRecord),
      childYearly ⟨true⟩ rates c =
        experienceMultiplier * childYearly ⟨false⟩ rates c := by
    intro rates c
    rw [childYearly, childYearly]
    cases hr : rates c.ageGroup c.isSpecialCare with
    | none => simp
    | some base =>
      dsimp only
      rw [hadj, mul_assoc]
  refine ⟨hadj, fun rates c => ⟨hcw rates c, hcy rates c⟩, ?_⟩
  intro cs rates resF resT hF hT
  obtain ⟨hFy, hFw, hFm⟩ := compute_ok_totals hF
  obtain ⟨hTy, hTw, hTm⟩ := compute_ok_totals hT
  have hy : resT.yearlyTotal = experienceMultiplier * resF.yearlyTotal := by
    rw [hTy, hFy, List.map_congr_left (fun c _ => hcy rates c),
      List.sum_map_mul_left]
  have hw : resT.weeklyTotal = experienceMultiplier * resF.weeklyTotal := by
    rw [hTw, hFw, List.map_congr_left (fun c _ => hcw rates c),
      List.sum_map_mul_left]
  refine ⟨hw, hy, ?_⟩
  rw [hTm, hFm, hy]
  ring

/-- C8 witness: the spec scenario household, unexperienced vs experienced —
all three totals rescale by the multiplier. -/
theorem claim_experience_uniform_witness :
    ({ weeklyTotal := 120, monthlyTotal := 520, yearlyTotal := 6240 } :
        AllowanceResult).weeklyTotal =
      experienceMultiplier *
        ({ weeklyTotal := 100, monthlyTotal := 1300 / 3, yearlyTotal := 5200 } :
          AllowanceResult).weeklyTotal :=
  (claim_experience_uniform.2.2 [demoChild] DEFAULT_RATES _ _
    (by
      simp [compute, computeChildren, computeChild, DEFAULT_RATES, adjustRate,
        activeWeekCount, normalizeIntervals, sortByStart, coalesce,
        coalesceFrom, sumLens, intervalLen, List.insertionSort,
        List.orderedInsert, demoChild]
      norm_num)
    (by
      simp [compute, computeChildren, computeChild, DEFAULT_RATES, adjustRate,
        activeWeekCount, normalizeIntervals, sortByStart, coalesce,
        coalesceFrom, sumLens, intervalLen, List.insertionSort,
        List.orderedInsert, demoChild, experienceMultiplier]
      norm_num)).1

/-- C9 counterexample: the page's call (`Index.tsx:86`) passes only the
children and the experience flag; its result is pinned to the module-level
`DEFAULT_RATES`, and a different table gives a different `compute` result —
so the rate table IS ambient configuration at the call boundary, refuting
"never accessed as ambient global state" for the code as written. -/
theorem claim_ratetable_ambient_counterexample :
    calculateTotalAllowance [demoChild] false =
      compute [demoChild] ⟨false⟩ DEFAULT_RATES ∧
    compute [demoChild] ⟨false⟩ zeroRates ≠
      compute [demoChild] ⟨false⟩ DEFAULT_RATES := by
  refine ⟨rfl, ?_⟩
  have h1 : compute [demoChild] ⟨false⟩ zeroRates =
      .ok { weeklyTotal := 0, monthlyTotal := 0, yearlyTotal := 0 } := by
    simp [compute, computeChildren, computeChild, zeroRates, adjustRate,
      demoChild]
  have h2 : compute [demoChild] ⟨false⟩ DEFAULT_RATES =
      .ok { weeklyTotal := 100, monthlyTotal := 1300 / 3, yearlyTotal := 5200 } := by
    simp [compute, computeChildren, computeChild, DEFAULT_RATES, adjustRate,
      activeWeekCount, normalizeIntervals, sortByStart, coalesce, coalesceFrom,
      sumLens, intervalLen, List.insertionSort, List.orderedInsert, demoChild]
    norm_num
  rw [h1, h2]
  intro hcon
  rw [Except.ok.injEq] at hcon
  have hw := congrArg AllowanceResult.weeklyTotal hcon
  norm_num at hw

/-- C9 amended: the calculation reached from the page is a pure,
deterministic function of the children list and the experience flag alone;
the rate table it reads is the fixed module-level `DEFAULT_RATES` — any
table pointwise equal to it yields the identical result, and no per-call
table is accepted at the call boundary. -/
theorem claim_calc_pure_fixed_table (cs : List ChildRecord) (e : Bool)
    (rates' : RateTable) (h : ∀ a b, rates' a b = DEFAULT_RATES a b) :
    calculateTotalAllowance cs e = compute cs ⟨e⟩ rates' := by
  rw [calculateTotalAllowance]
  exact (compute_congr_rates h).symm

/-- C9 witness: the fixed-table factorization at a concrete call. -/
theorem claim_calc_pure_fixed_table_witness :
    calculateTotalAllowance [] true = compute [] ⟨true⟩ DEFAULT_RATES :=
  claim_calc_pure_fixed_table [] true DEFAULT_RATES (fun _ _ => rfl)

/-- C10: starting from the page's initial single-child state, any run of
add/update/remove/reset events — adds carrying ids fresh at the moment they
happen, as `crypto.randomUUID()` provides — leaves the `children` list
nonempty: `handleRemoveChild` refuses to act when one child remains, so the
list handed to the calculator always has at least one element. -/
theorem claim_children_nonempty (es : List PageEvent)
    (h : FreshRun initialChildren es) :
    runPage initialChildren es ≠ [] :=
  (runPage_preserves es initialChildren
    ⟨by simp [initialChildren], by simp [initialChildren]⟩ h).1

/-- C10 witness: add a second child, then remove the first. -/
theorem claim_children_nonempty_witness :
    runPage initialChildren
      [PageEvent.addChild "x", PageEvent.removeChild "1"] ≠ [] :=
  claim_children_nonempty _ ⟨by decide, trivial, trivial⟩

end Allowance
